import Mathlib

/-
Verification of the BlogHub comment subsystem.

The definitions below are a shallow embedding of the comment logic of the
repository:

- the tree construction inside useComments/fetchComments (two passes over the
  flat, createdAt-ascending row list fetched from the backend: first pass
  indexes every comment by id with an empty replies list and collects roots,
  second pass appends each comment with a non-null parent id to the replies
  list of the indexed parent when present);
- the mutation operations createComment, deleteComment and toggleCommentLike
  of the same hook, modelled as functions of their explicit inputs (ambient
  post id, ambient authenticated user, outcome of each backend request) that
  return the surfaced result together with the list of write requests issued
  to the backend;
- the backend side effects declared in the SQL migration: the
  comment_likes_count_trigger maintaining comments.likes_count on insert and
  delete of comment_likes rows, and the ON DELETE CASCADE foreign key of
  comments.parent_id.

Rows are identified by their id column (a primary key, hence unique); lists
of child ids stand for the lists of child row objects of the source, which
are determined by their ids.
-/

namespace BlogHub

/-- Flat comment row as fetched from the backend (joined author profile
fields are irrelevant to the verified properties and omitted). -/
structure CommentRow where
  id : Nat
  postId : Nat
  authorId : Nat
  parentId : Option Nat
  content : String
  likesCount : Int
  createdAt : Nat
deriving DecidableEq

/-- Row of the comment_likes table. -/
structure LikeRow where
  id : Nat
  commentId : Nat
  userId : Nat
deriving DecidableEq

/-- Result of the tree construction: the comment map (id to replies list, in
insertion order, mirroring the JS Map) and the root id list. -/
structure TreeState where
  entries : List (Nat × List Nat)
  roots : List Nat
deriving DecidableEq

/-- JS Map.set: replace the value at an existing key in place, otherwise
append a new entry at the end (the maps built below always have distinct
keys, so replacing the first occurrence is replacing the occurrence). -/
def mapSet (m : List (Nat × List Nat)) (k : Nat) (v : List Nat) :
    List (Nat × List Nat) :=
  match m with
  | [] => [(k, v)]
  | e :: rest => if e.1 == k then (k, v) :: rest else e :: mapSet rest k v

/-- JS Map.get, as an Option. -/
def mapGet (m : List (Nat × List Nat)) (k : Nat) : Option (List Nat) :=
  (m.find? (fun e => e.1 == k)).map (fun e => e.2)

/-- First pass of the tree construction: index every comment by id with an
empty replies list; push comments with a null parent id onto the root list. -/
def pass1 (data : List CommentRow) (st : TreeState) : TreeState :=
  match data with
  | [] => st
  | c :: rest =>
      pass1 rest
        { entries := mapSet st.entries c.id []
          roots := match c.parentId with
            | none => st.roots ++ [c.id]
            | some _ => st.roots }

/-- Second pass of the tree construction: append each comment with a
non-null parent id to the replies list of the indexed parent when the parent
id is present in the map; otherwise leave the comment unattached. -/
def pass2 (data : List CommentRow) (st : TreeState) : TreeState :=
  match data with
  | [] => st
  | c :: rest =>
      match c.parentId with
      | none => pass2 rest st
      | some p =>
          match mapGet st.entries p with
          | some ch => pass2 rest { st with entries := mapSet st.entries p (ch ++ [c.id]) }
          | none => pass2 rest st

/-- The tree construction inside useComments/fetchComments. -/
def buildTree (data : List CommentRow) : TreeState :=
  pass2 data (pass1 data { entries := [], roots := [] })

/-- Replies list of the node with the given id (empty when the id is not in
the map). -/
def childrenOf (st : TreeState) (k : Nat) : List Nat :=
  (mapGet st.entries k).getD []

/-- First row of the list carrying the given id. -/
def rowOf (data : List CommentRow) (i : Nat) : Option CommentRow :=
  data.find? (fun c => c.id == i)

/-- Creation timestamp of the row carrying the given id (zero when absent). -/
def timeOf (data : List CommentRow) (i : Nat) : Nat :=
  ((rowOf data i).map (fun c => c.createdAt)).getD 0

/-- Sample rows for the concrete witness instances. -/
def r1 : CommentRow :=
  { id := 1, postId := 10, authorId := 100, parentId := none,
    content := "a", likesCount := 0, createdAt := 1 }

def r2 : CommentRow :=
  { id := 2, postId := 10, authorId := 100, parentId := some 1,
    content := "b", likesCount := 0, createdAt := 2 }

def r3 : CommentRow :=
  { id := 3, postId := 10, authorId := 101, parentId := none,
    content := "c", likesCount := 0, createdAt := 3 }

def r4 : CommentRow :=
  { id := 4, postId := 10, authorId := 100, parentId := some 99,
    content := "d", likesCount := 0, createdAt := 4 }

def r5 : CommentRow :=
  { id := 5, postId := 10, authorId := 100, parentId := some 5,
    content := "e", likesCount := 0, createdAt := 5 }

/-- Errors surfaced by the hook operations. The source throws plain Error
values; the three constructors stand for the three distinct throw sites:
the missing-post-id guard, the Not-authenticated guard, and a rejection
returned by the backend store and rethrown. -/
inductive ClientError where
  | noPostId
  | notAuthenticated
  | storeError
deriving DecidableEq

/-- Write requests the hook can issue to the backend store. -/
inductive WriteReq where
  | insertComment (postId authorId : Nat) (parentId : Option Nat) (content : String)
  | deleteComment (commentId : Nat)
  | insertCommentLike (commentId userId : Nat)
  | deleteCommentLike (likeId : Nat)
deriving DecidableEq

/-- Backend store state relevant to comment likes: the comments table with
its trigger-maintained likes_count column, the comment_likes table, and the
next fresh like row id. -/
structure StoreState where
  comments : List CommentRow
  commentLikes : List LikeRow
  nextLikeId : Nat
deriving DecidableEq

/-- Component state held by the useComments hook: the comment tree shown to
the user and the error message, if any. -/
structure HookState where
  comments : TreeState
  errorMsg : Option String
deriving DecidableEq

/-- Hook state used by concrete witness instances. -/
def hs0 : HookState :=
  { comments := { entries := [], roots := [] }, errorMsg := none }

/-- A string is empty after trimming exactly when every one of its
characters is whitespace. -/
def trimmedEmpty (s : String) : Bool :=
  s.data.all (fun ch => ch.isWhitespace)

/-- Comment row used by concrete witness instances of the like semantics. -/
def rW : CommentRow :=
  { id := 5, postId := 10, authorId := 100, parentId := none,
    content := "w", likesCount := 0, createdAt := 1 }

/-- Store state used by concrete witness instances. -/
def stW : StoreState :=
  { comments := [rW], commentLikes := [], nextLikeId := 1 }

/-- Lookup of the like record of the given user for the given comment,
mirroring the select on comment_likes filtered by comment_id and user_id. -/
def findUserLike (st : StoreState) (c u : Nat) : Option LikeRow :=
  st.commentLikes.find? (fun l => l.commentId == c && l.userId == u)

/-- Whether the given user currently has a like record for the comment. -/
def userLikes (st : StoreState) (c u : Nat) : Bool :=
  (findUserLike st c u).isSome

/-- The update run by the comment_likes_count_trigger: add delta to
likes_count of every comments row whose id matches. -/
def bumpLikes (cs : List CommentRow) (c : Nat) (delta : Int) : List CommentRow :=
  cs.map (fun r => if r.id == c then { r with likesCount := r.likesCount + delta } else r)

/-- The likes_count the next fetch reports for the given comment id. -/
def reportedLikeCount (st : StoreState) (c : Nat) : Int :=
  ((st.comments.find? (fun r => r.id == c)).map (fun r => r.likesCount)).getD 0

/-- Backend effect of inserting a comment_likes row: the row is appended
with a fresh id and the AFTER INSERT trigger increments the likes_count of
the liked comment. -/
def applyInsertLike (st : StoreState) (c u : Nat) : StoreState :=
  { comments := bumpLikes st.comments c 1
    commentLikes := st.commentLikes ++ [{ id := st.nextLikeId, commentId := c, userId := u }]
    nextLikeId := st.nextLikeId + 1 }

/-- Backend effect of deleting comment_likes rows by id: matching rows are
removed and the AFTER DELETE trigger decrements likes_count once per
removed row. -/
def applyDeleteLike (st : StoreState) (likeId : Nat) : StoreState :=
  { comments :=
      (st.commentLikes.filter (fun l => l.id == likeId)).foldl
        (fun cs l => bumpLikes cs l.commentId (-1)) st.comments
    commentLikes := st.commentLikes.filter (fun l => !(l.id == likeId))
    nextLikeId := st.nextLikeId }

/-- The toggleCommentLike operation against the store: fail when no user is
authenticated; otherwise look up an existing like record of that user for
the comment, delete it when present and insert one when absent. The
acceptWrites flag tells whether the store accepts the write; the source
ignores the error field returned for these two writes, so the surfaced
result does not depend on it. -/
def toggleCommentLike (st : StoreState) (user : Option Nat) (acceptWrites : Bool)
    (commentId : Nat) : Except ClientError Unit × StoreState × List WriteReq :=
  match user with
  | none => (Except.error ClientError.notAuthenticated, st, [])
  | some u =>
    match findUserLike st commentId u with
    | some l =>
        (Except.ok (), (if acceptWrites then applyDeleteLike st l.id else st),
          [WriteReq.deleteCommentLike l.id])
    | none =>
        (Except.ok (), (if acceptWrites then applyInsertLike st commentId u else st),
          [WriteReq.insertCommentLike commentId u])

/-- Invariants guaranteed by the backend schema: comments.id and
comment_likes.id are primary keys, comment_likes has a UNIQUE constraint on
the pair of comment_id and user_id, and fresh row ids are larger than all
existing ones. -/
structure StoreWF (st : StoreState) : Prop where
  commentIdsNodup : (st.comments.map (fun r => r.id)).Nodup
  likeIdsNodup : (st.commentLikes.map (fun l => l.id)).Nodup
  likeIdsBound : ∀ l ∈ st.commentLikes, l.id < st.nextLikeId
  likePairUnique : ∀ l ∈ st.commentLikes, ∀ l2 ∈ st.commentLikes,
    l.commentId = l2.commentId → l.userId = l2.userId → l = l2

/-- The fetchComments control flow at the hook level: return unchanged when
no post id is set; on a successful fetch replace the tree with the one
rebuilt from the fetched rows; on a failed fetch keep the tree and set the
error message. -/
def runFetchComments (hs : HookState) (postId : Option Nat)
    (fetchRes : Except Unit (List CommentRow)) : HookState :=
  match postId with
  | none => hs
  | some _ =>
    match fetchRes with
    | Except.ok data => { comments := buildTree data, errorMsg := hs.errorMsg }
    | Except.error _ => { comments := hs.comments, errorMsg := some "Failed to load comments" }

/-- The createComment operation at the hook level: guard on the ambient
post id, then on the authenticated user, then insert the row carrying the
given content and parent id as written; rethrow a rejected insert before
any refetch, and refetch on success. The source contains no content
validation of any kind. -/
def runCreateComment (hs : HookState) (postId user : Option Nat) (content : String)
    (parentId : Option Nat) (insertOk : Bool) (fetchRes : Except Unit (List CommentRow)) :
    Except ClientError Unit × HookState × List WriteReq :=
  match postId with
  | none => (Except.error ClientError.noPostId, hs, [])
  | some pid =>
    match user with
    | none => (Except.error ClientError.notAuthenticated, hs, [])
    | some u =>
      if insertOk then
        (Except.ok (), runFetchComments hs (some pid) fetchRes,
          [WriteReq.insertComment pid u parentId content])
      else
        (Except.error ClientError.storeError, hs,
          [WriteReq.insertComment pid u parentId content])

/-- The deleteComment operation at the hook level: issue the single delete
request for the given comment id (the cascade to descendants happens in
the backend schema, not here); rethrow a rejected delete before any
refetch, and refetch on success. -/
def runDeleteComment (hs : HookState) (postId : Option Nat) (commentId : Nat)
    (deleteOk : Bool) (fetchRes : Except Unit (List CommentRow)) :
    Except ClientError Unit × HookState × List WriteReq :=
  if deleteOk then
    (Except.ok (), runFetchComments hs postId fetchRes, [WriteReq.deleteComment commentId])
  else
    (Except.error ClientError.storeError, hs, [WriteReq.deleteComment commentId])

/-- The toggleCommentLike operation at the hook level: guard on the
authenticated user, read the existing like record, issue the delete or the
insert, then refetch. The source never inspects the result of the write,
so the writeOk flag does not influence anything. -/
def runToggleCommentLike (hs : HookState) (postId user : Option Nat) (commentId : Nat)
    (existingLike : Option Nat) (writeOk : Bool) (fetchRes : Except Unit (List CommentRow)) :
    Except ClientError Unit × HookState × List WriteReq :=
  match user with
  | none => (Except.error ClientError.notAuthenticated, hs, [])
  | some u =>
    (Except.ok (), runFetchComments hs postId fetchRes,
      match existingLike with
      | some lid => [WriteReq.deleteCommentLike lid]
      | none => [WriteReq.insertCommentLike commentId u])

/-- Parent id recorded on the first comments row carrying the given id. -/
def parentOf (comments : List CommentRow) (i : Nat) : Option Nat :=
  match comments.find? (fun r => r.id == i) with
  | some r => r.parentId
  | none => none

/-- A chain of parent references leading from the comment with the first
id to the comment with the second id. -/
inductive ParentChain (comments : List CommentRow) : Nat → Nat → Prop where
  | direct {d p : Nat} : parentOf comments d = some p → ParentChain comments d p
  | step {d p t : Nat} : parentOf comments d = some p → ParentChain comments p t →
      ParentChain comments d t

/-- Whether every non-null parent id in the table references an existing
comments row, as the foreign key of comments.parent_id enforces. -/
def fkIntact (comments : List CommentRow) : Bool :=
  comments.all (fun r =>
    match r.parentId with
    | none => true
    | some p => comments.any (fun q => q.id == p))

/-- Table remaining after deleting the rows carrying the given id. -/
def restOf (comments : List CommentRow) (t : Nat) : List CommentRow :=
  comments.filter (fun r => !(r.id == t))

/-- Ids of the remaining rows that referenced the deleted id as parent;
these are deleted next by the cascade. -/
def kidsOf (comments : List CommentRow) (t : Nat) : List Nat :=
  ((restOf comments t).filter (fun r => r.parentId == some t)).map (fun r => r.id)

/-- Backend semantics of DELETE on comments with the ON DELETE CASCADE
foreign key on parent_id: a worklist of ids to delete; deleting the rows
carrying an id enqueues the ids of the remaining rows that referenced it
as parent. -/
def cascadeDelete (comments : List CommentRow) (work : List Nat) : List CommentRow :=
  match work with
  | [] => comments
  | t :: ts =>
    if h : comments.any (fun r => r.id == t) then
      cascadeDelete (restOf comments t) (ts ++ kidsOf comments t)
    else
      cascadeDelete comments ts
termination_by (comments.length, work.length)
decreasing_by
  · apply Prod.Lex.left
    unfold restOf
    rw [List.length_filter_lt_length_iff_exists]
    rcases List.any_eq_true.mp h with ⟨x, hx, hxt⟩
    exact ⟨x, hx, by simp_all⟩
  · apply Prod.Lex.right
    simp

/-- Store-level effect of deleteComment on the comments table. -/
def deleteCommentStore (comments : List CommentRow) (c : Nat) : List CommentRow :=
  cascadeDelete comments [c]

/-- Foreign key integrity up to the pending worklist: a row whose parent
row is already gone must itself be scheduled for deletion. -/
def FKmodWork (comments : List CommentRow) (work : List Nat) : Prop :=
  ∀ r ∈ comments, ∀ p, r.parentId = some p →
    (∃ q ∈ comments, q.id = p) ∨ r.id ∈ work

end BlogHub

namespace BlogHub

theorem mapGet_mapSet_self (m : List (Nat × List Nat)) (k : Nat) (v : List Nat) :
    mapGet (mapSet m k v) k = some v := by
  induction m with
  | nil => simp [mapSet, mapGet]
  | cons e rest ih =>
    by_cases he : e.1 = k
    · simp [mapSet, mapGet, he]
    · have heb : (e.1 == k) = false := by simpa using he
      simp only [mapSet, heb, if_neg, Bool.false_eq_true, if_false]
      simpa [mapGet, heb] using ih

theorem mapGet_mapSet_ne (m : List (Nat × List Nat)) (k k' : Nat) (v : List Nat)
    (hne : k' ≠ k) : mapGet (mapSet m k v) k' = mapGet m k' := by
  induction m with
  | nil =>
    have : (k == k') = false := by simpa using fun hkk => hne hkk.symm
    simp [mapSet, mapGet, this]
  | cons e rest ih =>
    by_cases he : e.1 = k
    · have : (k == k') = false := by simpa using fun hkk => hne hkk.symm
      have he' : (e.1 == k') = false := by simpa [he] using fun hkk => hne hkk.symm
      simp [mapSet, mapGet, he, this, he']
    · have heb : (e.1 == k) = false := by simpa using he
      by_cases he' : e.1 = k'
      · have he'b : (e.1 == k') = true := by simpa using he'
        simp [mapSet, mapGet, heb, he'b]
      · have he'b : (e.1 == k') = false := by simpa using he'
        simp only [mapSet, heb, Bool.false_eq_true, if_false]
        simpa [mapGet, he'b] using ih

theorem pass2_roots (data : List CommentRow) (st : TreeState) :
    (pass2 data st).roots = st.roots := by
  induction data generalizing st with
  | nil => rfl
  | cons c rest ih =>
    cases hc : c.parentId with
    | none => simpa [pass2, hc] using ih st
    | some p =>
      cases hg : mapGet st.entries p with
      | none => simpa [pass2, hc, hg] using ih st
      | some ch => simpa [pass2, hc, hg] using ih _

theorem pass1_roots (data : List CommentRow) (st : TreeState) :
    (pass1 data st).roots =
      st.roots ++ (data.filter (fun c => c.parentId.isNone)).map (fun c => c.id) := by
  induction data generalizing st with
  | nil => simp [pass1]
  | cons c rest ih =>
    cases hc : c.parentId with
    | none => simp [pass1, hc, ih]
    | some p => simp [pass1, hc, ih]

theorem pass1_mapGet (data : List CommentRow) (st : TreeState) (k : Nat) :
    mapGet (pass1 data st).entries k =
      if k ∈ data.map (fun c => c.id) then some [] else mapGet st.entries k := by
  induction data generalizing st with
  | nil => simp [pass1]
  | cons c rest ih =>
    by_cases hk : k ∈ rest.map (fun c => c.id)
    · simp [pass1, ih, hk]
    · by_cases hck : k = c.id
      · subst hck
        simp [pass1, ih, hk, mapGet_mapSet_self]
      · simp [pass1, ih, hk, hck, mapGet_mapSet_ne _ _ _ _ hck]

theorem pass2_mapGet (data : List CommentRow) (st : TreeState) (k : Nat) :
    mapGet (pass2 data st).entries k =
      (mapGet st.entries k).map
        (fun ch => ch ++ (data.filter (fun c => c.parentId == some k)).map (fun c => c.id)) := by
  induction data generalizing st with
  | nil => cases hg : mapGet st.entries k <;> simp [pass2, hg]
  | cons c rest ih =>
    cases hc : c.parentId with
    | none =>
      have hf : (c.parentId == some k) = false := by simp [hc]
      simp [pass2, hc, ih, List.filter_cons, hf]
    | some p =>
      by_cases hpk : p = k
      · subst hpk
        have hf : (c.parentId == some p) = true := by simp [hc]
        cases hg : mapGet st.entries p with
        | none => simp [pass2, hc, hg, ih, List.filter_cons, hf]
        | some ch => simp [pass2, hc, hg, ih, List.filter_cons, hf, mapGet_mapSet_self]
      · have hf : (c.parentId == some k) = false := by simp [hc, hpk]
        cases hg : mapGet st.entries p with
        | none => simp [pass2, hc, hg, ih, List.filter_cons, hf, hpk]
        | some ch =>
          simp [pass2, hc, hg, ih, List.filter_cons, hf, hpk,
            mapGet_mapSet_ne st.entries p k _ (fun h => hpk h.symm)]

theorem buildTree_roots_eq (data : List CommentRow) :
    (buildTree data).roots =
      (data.filter (fun c => c.parentId.isNone)).map (fun c => c.id) := by
  unfold buildTree
  rw [pass2_roots, pass1_roots]
  rfl

theorem childrenOf_buildTree (data : List CommentRow) (k : Nat) :
    childrenOf (buildTree data) k =
      if k ∈ data.map (fun c => c.id)
      then (data.filter (fun c => c.parentId == some k)).map (fun c => c.id)
      else [] := by
  unfold childrenOf buildTree
  rw [pass2_mapGet, pass1_mapGet]
  by_cases h : k ∈ data.map (fun c => c.id) <;> simp [h, mapGet]

theorem rowOf_mem_self {data : List CommentRow}
    (hids : (data.map (fun c => c.id)).Nodup) {c : CommentRow} (hc : c ∈ data) :
    rowOf data c.id = some c := by
  induction data with
  | nil => cases hc
  | cons d rest ih =>
    simp only [List.map_cons, List.nodup_cons] at hids
    rcases List.mem_cons.mp hc with rfl | hc'
    · simp [rowOf]
    · have hne : (d.id == c.id) = false := by
        simp only [beq_eq_false_iff_ne, ne_eq]
        intro h
        exact hids.1 (h ▸ List.mem_map_of_mem _ hc')
      simp only [rowOf, List.find?_cons, hne]
      exact ih hids.2 hc'

theorem timeOf_eq {data : List CommentRow}
    (hids : (data.map (fun c => c.id)).Nodup) {c : CommentRow} (hc : c ∈ data) :
    timeOf data c.id = c.createdAt := by
  simp [timeOf, rowOf_mem_self hids hc]

/-- C1: for every flat comment set with unique ids, the tree built inside
fetchComments has, at every node, a children list that is exactly the input
comments whose parent id equals the id of that node, and a root list that is
exactly the input comments whose parent id is null (comments written as
their unique ids). -/
theorem buildTree_children_and_roots_exact (data : List CommentRow)
    (hids : (data.map (fun c => c.id)).Nodup) (n : CommentRow) (hn : n ∈ data) :
    childrenOf (buildTree data) n.id =
      (data.filter (fun c => c.parentId == some n.id)).map (fun c => c.id) ∧
    (buildTree data).roots =
      (data.filter (fun c => c.parentId.isNone)).map (fun c => c.id) := by
  refine ⟨?_, buildTree_roots_eq data⟩
  rw [childrenOf_buildTree, if_pos (List.mem_map_of_mem _ hn)]

theorem buildTree_children_and_roots_exact_witness :
    ((([r1, r2, r3] : List CommentRow).map (fun c => c.id)).Nodup ∧ r1 ∈ [r1, r2, r3]) ∧
    childrenOf (buildTree [r1, r2, r3]) r1.id =
      (([r1, r2, r3].filter (fun c => c.parentId == some r1.id)).map (fun c => c.id)) ∧
    (buildTree [r1, r2, r3]).roots =
      (([r1, r2, r3].filter (fun c => c.parentId.isNone)).map (fun c => c.id)) :=
  ⟨⟨by decide, by simp⟩,
    buildTree_children_and_roots_exact [r1, r2, r3] (by decide) r1 (by simp)⟩

/-- C2: for every flat comment set with unique ids that is sorted ascending
by creation time, the root list and every children list of the built tree
are again sorted ascending by creation time, so sibling order matches the
input order. -/
theorem buildTree_sibling_order (data : List CommentRow)
    (hids : (data.map (fun c => c.id)).Nodup)
    (hsorted : data.Pairwise (fun a b => a.createdAt ≤ b.createdAt)) :
    ((buildTree data).roots).Pairwise (fun a b => timeOf data a ≤ timeOf data b) ∧
    ∀ n ∈ data, (childrenOf (buildTree data) n.id).Pairwise
      (fun a b => timeOf data a ≤ timeOf data b) := by
  have key : ∀ (p : CommentRow → Bool),
      ((data.filter p).map (fun c => c.id)).Pairwise
        (fun a b => timeOf data a ≤ timeOf data b) := by
    intro p
    rw [List.pairwise_map]
    refine (hsorted.filter p).imp_of_mem ?_
    intro a b ha hb hab
    rw [timeOf_eq hids (List.mem_filter.mp ha).1,
      timeOf_eq hids (List.mem_filter.mp hb).1]
    exact hab
  constructor
  · rw [buildTree_roots_eq]
    exact key _
  · intro n hn
    rw [childrenOf_buildTree, if_pos (List.mem_map_of_mem _ hn)]
    exact key _

theorem buildTree_sibling_order_witness :
    ((([r1, r2, r3] : List CommentRow).map (fun c => c.id)).Nodup ∧
      ([r1, r2, r3] : List CommentRow).Pairwise (fun a b => a.createdAt ≤ b.createdAt)) ∧
    ((buildTree [r1, r2, r3]).roots).Pairwise
      (fun a b => timeOf [r1, r2, r3] a ≤ timeOf [r1, r2, r3] b) ∧
    (childrenOf (buildTree [r1, r2, r3]) r1.id).Pairwise
      (fun a b => timeOf [r1, r2, r3] a ≤ timeOf [r1, r2, r3] b) := by
  have h := buildTree_sibling_order [r1, r2, r3] (by decide) (by decide)
  exact ⟨⟨by decide, by decide⟩, h.1, h.2 r1 (by simp)⟩

/-- C3: a comment whose non-null parent id does not match the id of any
comment in the input set is silently dropped by the tree construction: its
id appears neither in the root list nor in any children list, and the
construction is a total function, so no error is raised. -/
theorem buildTree_orphan_dropped (data : List CommentRow)
    (hids : (data.map (fun c => c.id)).Nodup)
    (c : CommentRow) (hc : c ∈ data) (p : Nat) (hp : c.parentId = some p)
    (habs : ∀ d ∈ data, d.id ≠ p) :
    c.id ∉ (buildTree data).roots ∧
    ∀ k, c.id ∉ childrenOf (buildTree data) k := by
  constructor
  · rw [buildTree_roots_eq]
    intro hmem
    rcases List.mem_map.mp hmem with ⟨d, hd, hdid⟩
    have hdc : d = c :=
      List.inj_on_of_nodup_map hids (List.mem_filter.mp hd).1 hc hdid
    subst hdc
    have := (List.mem_filter.mp hd).2
    simp [hp] at this
  · intro k
    rw [childrenOf_buildTree]
    by_cases hk : k ∈ data.map (fun c => c.id)
    · rw [if_pos hk]
      intro hmem
      rcases List.mem_map.mp hmem with ⟨d, hd, hdid⟩
      have hdc : d = c :=
        List.inj_on_of_nodup_map hids (List.mem_filter.mp hd).1 hc hdid
      subst hdc
      have hfk := (List.mem_filter.mp hd).2
      have hpk : p = k := by simpa [hp] using hfk
      subst hpk
      rcases List.mem_map.mp hk with ⟨e, he, heid⟩
      exact habs e he heid
    · rw [if_neg hk]
      simp

theorem buildTree_orphan_dropped_witness :
    ((([r1, r4] : List CommentRow).map (fun c => c.id)).Nodup ∧
      r4 ∈ ([r1, r4] : List CommentRow) ∧ r4.parentId = some 99) ∧
    r4.id ∉ (buildTree [r1, r4]).roots ∧
    r4.id ∉ childrenOf (buildTree [r1, r4]) r1.id ∧
    r4.id ∉ childrenOf (buildTree [r1, r4]) r4.id := by
  have h := buildTree_orphan_dropped [r1, r4] (by decide) r4 (by simp) 99 (by decide)
    (by decide)
  exact ⟨⟨by decide, by simp, by decide⟩, h.1, h.2 r1.id, h.2 r4.id⟩

/-- C10: a comment whose parent id equals its own id is not dropped as an
orphan: the construction appends the node to its own replies list and omits
it from the root list, so it appears at top level nowhere while still being
attached, under itself. -/
theorem buildTree_self_parent (data : List CommentRow)
    (hids : (data.map (fun c => c.id)).Nodup)
    (c : CommentRow) (hc : c ∈ data) (hp : c.parentId = some c.id) :
    c.id ∈ childrenOf (buildTree data) c.id ∧
    c.id ∉ (buildTree data).roots := by
  constructor
  · rw [childrenOf_buildTree, if_pos (List.mem_map_of_mem _ hc)]
    exact List.mem_map_of_mem _ (List.mem_filter.mpr ⟨hc, by simp [hp]⟩)
  · rw [buildTree_roots_eq]
    intro hmem
    rcases List.mem_map.mp hmem with ⟨d, hd, hdid⟩
    have hdc : d = c :=
      List.inj_on_of_nodup_map hids (List.mem_filter.mp hd).1 hc hdid
    subst hdc
    have := (List.mem_filter.mp hd).2
    simp [hp] at this

theorem buildTree_self_parent_witness :
    ((([r1, r5] : List CommentRow).map (fun c => c.id)).Nodup ∧
      r5 ∈ ([r1, r5] : List CommentRow) ∧ r5.parentId = some r5.id) ∧
    r5.id ∈ childrenOf (buildTree [r1, r5]) r5.id ∧
    r5.id ∉ (buildTree [r1, r5]).roots :=
  ⟨⟨by decide, by simp, by decide⟩,
    buildTree_self_parent [r1, r5] (by decide) r5 (by simp) (by decide)⟩

/-- C4 counterexample: a createComment call whose content is empty after
trimming, made with a post id and an authenticated user and an accepting
store, succeeds and issues the insert write carrying that content, so it
neither fails with a ValidationError nor withholds the store write. -/
theorem createComment_empty_content_cx :
    trimmedEmpty "   " = true ∧
    (runCreateComment hs0 (some 1) (some 7) "   " none true (Except.ok [])).1 =
      Except.ok () ∧
    (runCreateComment hs0 (some 1) (some 7) "   " none true (Except.ok [])).2.2 =
      [WriteReq.insertComment 1 7 none "   "] :=
  ⟨by decide, rfl, rfl⟩

/-- C4 amended: createComment performs no content validation at all. With a
post id present and an authenticated user it always issues exactly one
insert write carrying the given content unchanged, whether or not that
content is empty after trimming; it succeeds exactly when the store accepts
the write and otherwise surfaces the store rejection, never a
ValidationError. -/
theorem createComment_no_validation (hs : HookState) (pid u : Nat) (content : String)
    (parentId : Option Nat) (insertOk : Bool) (fetchRes : Except Unit (List CommentRow)) :
    (runCreateComment hs (some pid) (some u) content parentId insertOk fetchRes).2.2 =
      [WriteReq.insertComment pid u parentId content] ∧
    (runCreateComment hs (some pid) (some u) content parentId insertOk fetchRes).1 =
      (if insertOk then Except.ok () else Except.error ClientError.storeError) := by
  cases insertOk <;> exact ⟨rfl, rfl⟩

/-- C5: a createComment or toggleCommentLike call made while no user is
authenticated fails with the Not-authenticated error, leaves every state
unchanged and issues no write to the store, in the hook model and in the
store model alike. -/
theorem unauthenticated_mutations_rejected (hs : HookState) (pid : Nat)
    (content : String) (parentId : Option Nat) (insertOk : Bool)
    (fetchRes : Except Unit (List CommentRow)) (st : StoreState)
    (acceptWrites : Bool) (c : Nat) (existingLike : Option Nat) (writeOk : Bool) :
    runCreateComment hs (some pid) none content parentId insertOk fetchRes =
      (Except.error ClientError.notAuthenticated, hs, []) ∧
    toggleCommentLike st none acceptWrites c =
      (Except.error ClientError.notAuthenticated, st, []) ∧
    runToggleCommentLike hs (some pid) none c existingLike writeOk fetchRes =
      (Except.error ClientError.notAuthenticated, hs, []) :=
  ⟨rfl, rfl, rfl⟩

/-- C7: when the store rejects the like-record insert or delete, the
operation still reports success, because the source never inspects the
error returned for these two writes; the rejection is not surfaced as a
StoreError, contradicting the claim and the stated intent of the
surrounding code, which rethrows every other store rejection. -/
theorem toggleCommentLike_ignores_rejection (st : StoreState) (u c : Nat) :
    (toggleCommentLike st (some u) false c).1 = Except.ok () ∧
    (toggleCommentLike st (some u) false c).2.1 = st := by
  rcases hf : findUserLike st c u with _ | l <;> simp [toggleCommentLike, hf]

theorem runFetchComments_cases (hs : HookState) (postId : Option Nat)
    (fetchRes : Except Unit (List CommentRow)) :
    (runFetchComments hs postId fetchRes).comments = hs.comments ∨
    ∃ data, fetchRes = Except.ok data ∧
      (runFetchComments hs postId fetchRes).comments = buildTree data := by
  cases postId with
  | none => exact Or.inl rfl
  | some pid =>
    cases fetchRes with
    | ok data => exact Or.inr ⟨data, rfl, rfl⟩
    | error e => exact Or.inl rfl

/-- C8: a mutation that fails with an error leaves the comment tree held by
the hook exactly as it was before the attempt, and in every run the tree is
either unchanged or replaced by the tree rebuilt from a successful refetch;
no optimistic update is ever applied. -/
theorem failed_mutation_preserves_tree (hs : HookState) (postId user : Option Nat)
    (content : String) (parentId : Option Nat) (cid : Nat) (existingLike : Option Nat)
    (insertOk deleteOk writeOk : Bool) (fetchRes : Except Unit (List CommentRow)) :
    ((∀ e, (runCreateComment hs postId user content parentId insertOk fetchRes).1 =
          Except.error e →
        (runCreateComment hs postId user content parentId insertOk fetchRes).2.1.comments =
          hs.comments) ∧
      (∀ e, (runDeleteComment hs postId cid deleteOk fetchRes).1 = Except.error e →
        (runDeleteComment hs postId cid deleteOk fetchRes).2.1.comments = hs.comments) ∧
      (∀ e, (runToggleCommentLike hs postId user cid existingLike writeOk fetchRes).1 =
          Except.error e →
        (runToggleCommentLike hs postId user cid existingLike writeOk fetchRes).2.1.comments =
          hs.comments)) ∧
    (((runCreateComment hs postId user content parentId insertOk fetchRes).2.1.comments =
          hs.comments ∨
        ∃ data, fetchRes = Except.ok data ∧
          (runCreateComment hs postId user content parentId insertOk fetchRes).2.1.comments =
            buildTree data) ∧
      ((runDeleteComment hs postId cid deleteOk fetchRes).2.1.comments = hs.comments ∨
        ∃ data, fetchRes = Except.ok data ∧
          (runDeleteComment hs postId cid deleteOk fetchRes).2.1.comments = buildTree data) ∧
      ((runToggleCommentLike hs postId user cid existingLike writeOk fetchRes).2.1.comments =
          hs.comments ∨
        ∃ data, fetchRes = Except.ok data ∧
          (runToggleCommentLike hs postId user cid existingLike writeOk fetchRes).2.1.comments =
            buildTree data)) := by
  refine ⟨⟨?_, ?_, ?_⟩, ?_, ?_, ?_⟩
  · intro e he
    cases postId with
    | none => rfl
    | some pid =>
      cases user with
      | none => rfl
      | some u =>
        cases insertOk with
        | true => simp [runCreateComment] at he
        | false => rfl
  · intro e he
    cases deleteOk with
    | true => simp [runDeleteComment] at he
    | false => rfl
  · intro e he
    cases user with
    | none => rfl
    | some u => simp [runToggleCommentLike] at he
  · cases postId with
    | none => exact Or.inl rfl
    | some pid =>
      cases user with
      | none => exact Or.inl rfl
      | some u =>
        cases insertOk with
        | true => exact runFetchComments_cases hs (some pid) fetchRes
        | false => exact Or.inl rfl
  · cases deleteOk with
    | true => exact runFetchComments_cases hs postId fetchRes
    | false => exact Or.inl rfl
  · cases user with
    | none => exact Or.inl rfl
    | some u => exact runFetchComments_cases hs postId fetchRes

theorem failed_mutation_preserves_tree_witness :
    (runCreateComment hs0 (some 1) none "hi" none true (Except.ok [r1])).2.1.comments =
      hs0.comments ∧
    (runDeleteComment hs0 (some 1) 5 false (Except.ok [r1])).2.1.comments = hs0.comments ∧
    (runToggleCommentLike hs0 (some 1) none 5 none true (Except.ok [r1])).2.1.comments =
      hs0.comments := by
  obtain ⟨⟨h1, h2, h3⟩, -⟩ :=
    failed_mutation_preserves_tree hs0 (some 1) none "hi" none 5 none true false true
      (Except.ok [r1])
  exact ⟨h1 ClientError.notAuthenticated rfl, h2 ClientError.storeError rfl,
    h3 ClientError.notAuthenticated rfl⟩

theorem like_filter_eq {likes : List LikeRow}
    (hnd : (likes.map (fun l => l.id)).Nodup) {l : LikeRow} (hl : l ∈ likes) :
    likes.filter (fun x => x.id == l.id) = [l] := by
  induction likes with
  | nil => cases hl
  | cons a rest ih =>
    simp only [List.map_cons, List.nodup_cons] at hnd
    rcases List.mem_cons.mp hl with rfl | hl2
    · have hrest : rest.filter (fun x => x.id == l.id) = [] := by
        rw [List.filter_eq_nil]
        intro x hx
        simp only [beq_iff_eq]
        intro h
        exact hnd.1 (h ▸ List.mem_map_of_mem _ hx)
      simp [List.filter_cons, hrest]
    · have hne : (a.id == l.id) = false := by
        simp only [beq_eq_false_iff_ne, ne_eq]
        intro h
        exact hnd.1 (h ▸ List.mem_map_of_mem _ hl2)
      simp [List.filter_cons, hne, ih hnd.2 hl2]

theorem bumpLikes_ids (cs : List CommentRow) (c : Nat) (d : Int) :
    (bumpLikes cs c d).map (fun r => r.id) = cs.map (fun r => r.id) := by
  unfold bumpLikes
  rw [List.map_map]
  apply List.map_congr_left
  intro a _
  by_cases h : a.id = c <;> simp [h]

theorem bump_foldl_ids (ls : List LikeRow) (cs : List CommentRow) :
    ((ls.foldl (fun acc l => bumpLikes acc l.commentId (-1)) cs).map (fun r => r.id)) =
      cs.map (fun r => r.id) := by
  induction ls generalizing cs with
  | nil => rfl
  | cons a rest ih => rw [List.foldl_cons, ih, bumpLikes_ids]

theorem find?_bumpLikes_self (cs : List CommentRow) (c : Nat) (d : Int) :
    (bumpLikes cs c d).find? (fun r => r.id == c) =
      (cs.find? (fun r => r.id == c)).map
        (fun r => { r with likesCount := r.likesCount + d }) := by
  induction cs with
  | nil => rfl
  | cons a rest ih =>
    by_cases h : a.id = c
    · have hb : (a.id == c) = true := by simpa using h
      simp [bumpLikes, List.find?_cons, h, hb]
    · have hb : (a.id == c) = false := by simpa using h
      simp only [bumpLikes, List.map_cons, h, if_false, List.find?_cons, hb]
      simpa [bumpLikes, hb] using ih

theorem reported_applyInsertLike (st : StoreState) (c u : Nat)
    (hc : (st.comments.find? (fun r => r.id == c)).isSome) :
    reportedLikeCount (applyInsertLike st c u) c = reportedLikeCount st c + 1 := by
  unfold reportedLikeCount applyInsertLike
  rw [find?_bumpLikes_self]
  rcases Option.isSome_iff_exists.mp hc with ⟨r, hr⟩
  simp [hr]

theorem reported_applyDeleteLike (st : StoreState) {l : LikeRow}
    (hl : l ∈ st.commentLikes) (hnd : (st.commentLikes.map (fun x => x.id)).Nodup)
    (hc : (st.comments.find? (fun r => r.id == l.commentId)).isSome) :
    reportedLikeCount (applyDeleteLike st l.id) l.commentId =
      reportedLikeCount st l.commentId - 1 := by
  unfold reportedLikeCount applyDeleteLike
  rw [like_filter_eq hnd hl]
  simp only [List.foldl_cons, List.foldl_nil]
  rw [find?_bumpLikes_self]
  rcases Option.isSome_iff_exists.mp hc with ⟨r, hr⟩
  simp [hr]
  omega

theorem userLikes_applyInsertLike_self (st : StoreState) (c u : Nat) :
    userLikes (applyInsertLike st c u) c u = true := by
  unfold userLikes findUserLike applyInsertLike
  rw [List.find?_append]
  cases hfe : st.commentLikes.find? (fun l => l.commentId == c && l.userId == u) <;>
    simp [List.find?_cons]

theorem userLikes_applyDeleteLike (st : StoreState) {c u : Nat} {l : LikeRow}
    (hl : findUserLike st c u = some l)
    (huniq : ∀ x ∈ st.commentLikes, ∀ y ∈ st.commentLikes,
      x.commentId = y.commentId → x.userId = y.userId → x = y) :
    userLikes (applyDeleteLike st l.id) c u = false := by
  have hlmem : l ∈ st.commentLikes := List.mem_of_find?_eq_some hl
  have hlp := List.find?_some hl
  simp only [Bool.and_eq_true, beq_iff_eq] at hlp
  unfold userLikes findUserLike applyDeleteLike
  have hnone : (st.commentLikes.filter (fun x => !(x.id == l.id))).find?
      (fun x => x.commentId == c && x.userId == u) = none := by
    rw [List.find?_eq_none]
    intro x hx hcond
    rcases List.mem_filter.mp hx with ⟨hx1, hx2⟩
    simp only [Bool.and_eq_true, beq_iff_eq] at hcond
    have hxl : x = l :=
      huniq x hx1 l hlmem (hcond.1.trans hlp.1.symm) (hcond.2.trans hlp.2.symm)
    rw [hxl] at hx2
    simp at hx2
  simp [hnone]

theorem wf_applyDeleteLike (st : StoreState) (likeId : Nat) (hwf : StoreWF st) :
    StoreWF (applyDeleteLike st likeId) := by
  refine ⟨?_, ?_, ?_, ?_⟩
  · show ((st.commentLikes.filter (fun l => l.id == likeId)).foldl
        (fun cs l => bumpLikes cs l.commentId (-1)) st.comments).map (fun r => r.id) |>.Nodup
    rw [bump_foldl_ids]
    exact hwf.commentIdsNodup
  · exact List.Nodup.sublist ((List.filter_sublist _).map _) hwf.likeIdsNodup
  · intro l hl
    exact hwf.likeIdsBound l (List.mem_filter.mp hl).1
  · intro l hl l2 hl2 h1 h2
    exact hwf.likePairUnique l (List.mem_filter.mp hl).1 l2 (List.mem_filter.mp hl2).1 h1 h2

theorem wf_applyInsertLike (st : StoreState) (c u : Nat) (hwf : StoreWF st)
    (hnew : findUserLike st c u = none) : StoreWF (applyInsertLike st c u) := by
  have hnone := List.find?_eq_none.mp hnew
  constructor
  · have : (applyInsertLike st c u).comments = bumpLikes st.comments c 1 := rfl
    rw [this, bumpLikes_ids]
    exact hwf.commentIdsNodup
  · have : (applyInsertLike st c u).commentLikes =
        st.commentLikes ++ [{ id := st.nextLikeId, commentId := c, userId := u }] := rfl
    rw [this, List.map_append, List.nodup_append]
    refine ⟨hwf.likeIdsNodup, List.nodup_singleton _, ?_⟩
    intro x hx hx2
    simp only [List.map_cons, List.map_nil, List.mem_singleton] at hx2
    rcases List.mem_map.mp hx with ⟨lrow, hlrow, rfl⟩
    have := hwf.likeIdsBound lrow hlrow
    simp only [hx2] at this
    omega
  · intro l hl
    rcases List.mem_append.mp hl with h | h
    · have := hwf.likeIdsBound l h
      have hn : (applyInsertLike st c u).nextLikeId = st.nextLikeId + 1 := rfl
      rw [hn]
      omega
    · simp only [List.mem_singleton] at h
      subst h
      have hn : (applyInsertLike st c u).nextLikeId = st.nextLikeId + 1 := rfl
      rw [hn]
      show st.nextLikeId < st.nextLikeId + 1
      omega
  · intro l hl l2 hl2 h1 h2
    rcases List.mem_append.mp hl with ha | ha <;> rcases List.mem_append.mp hl2 with hb | hb
    · exact hwf.likePairUnique l ha l2 hb h1 h2
    · exfalso
      simp only [List.mem_singleton] at hb
      subst hb
      exact hnone l ha (by simp [h1, h2])
    · exfalso
      simp only [List.mem_singleton] at ha
      subst ha
      exact hnone l2 hb (by simp [h1.symm, h2.symm])
    · simp only [List.mem_singleton] at ha hb
      rw [ha, hb]

theorem toggle_step (st : StoreState) (u c : Nat) (hwf : StoreWF st)
    (hc : c ∈ st.comments.map (fun r => r.id)) :
    (userLikes st c u = true →
        userLikes (toggleCommentLike st (some u) true c).2.1 c u = false ∧
        reportedLikeCount (toggleCommentLike st (some u) true c).2.1 c =
          reportedLikeCount st c - 1) ∧
    (userLikes st c u = false →
        userLikes (toggleCommentLike st (some u) true c).2.1 c u = true ∧
        reportedLikeCount (toggleCommentLike st (some u) true c).2.1 c =
          reportedLikeCount st c + 1) ∧
    StoreWF (toggleCommentLike st (some u) true c).2.1 ∧
    c ∈ (toggleCommentLike st (some u) true c).2.1.comments.map (fun r => r.id) := by
  have hcs : (st.comments.find? (fun r => r.id == c)).isSome := by
    rw [List.find?_isSome]
    rcases List.mem_map.mp hc with ⟨r, hr, rfl⟩
    exact ⟨r, hr, by simp⟩
  rcases hf : findUserLike st c u with _ | l
  · have hres : (toggleCommentLike st (some u) true c).2.1 = applyInsertLike st c u := by
      simp [toggleCommentLike, hf]
    rw [hres]
    refine ⟨?_, ?_, ?_, ?_⟩
    · intro habs
      rw [userLikes, hf] at habs
      simp at habs
    · intro _
      exact ⟨userLikes_applyInsertLike_self st c u, reported_applyInsertLike st c u hcs⟩
    · exact wf_applyInsertLike st c u hwf hf
    · have : (applyInsertLike st c u).comments = bumpLikes st.comments c 1 := rfl
      rw [this, bumpLikes_ids]
      exact hc
  · have hlc : l.commentId = c ∧ l.userId = u := by
      have := List.find?_some hf
      simpa [Bool.and_eq_true, beq_iff_eq] using this
    have hres : (toggleCommentLike st (some u) true c).2.1 = applyDeleteLike st l.id := by
      simp [toggleCommentLike, hf]
    rw [hres]
    refine ⟨?_, ?_, ?_, ?_⟩
    · intro _
      refine ⟨userLikes_applyDeleteLike st hf hwf.likePairUnique, ?_⟩
      have hrep := reported_applyDeleteLike st (List.mem_of_find?_eq_some hf)
        hwf.likeIdsNodup (by rw [hlc.1]; exact hcs)
      rwa [hlc.1] at hrep
    · intro habs
      rw [userLikes, hf] at habs
      simp at habs
    · exact wf_applyDeleteLike st l.id hwf
    · have hmap : (applyDeleteLike st l.id).comments.map (fun r => r.id) =
          st.comments.map (fun r => r.id) := by
        have : (applyDeleteLike st l.id).comments =
            (st.commentLikes.filter (fun x => x.id == l.id)).foldl
              (fun cs x => bumpLikes cs x.commentId (-1)) st.comments := rfl
        rw [this, bump_foldl_ids]
      rw [hmap]
      exact hc

/-- C6: for every authenticated user and comment in a store satisfying the
schema constraints, toggleCommentLike removes the like record of that user
for that comment when one exists and inserts one when none exists, the
likes count reported on the next fetch is decremented by one in the first
case and incremented by one in the second, and two successive toggles by
the same user restore the original like state and the original count. -/
theorem toggleCommentLike_toggle_semantics (st : StoreState) (u c : Nat)
    (hwf : StoreWF st) (hc : c ∈ st.comments.map (fun r => r.id)) :
    ((userLikes st c u = true →
        userLikes (toggleCommentLike st (some u) true c).2.1 c u = false ∧
        reportedLikeCount (toggleCommentLike st (some u) true c).2.1 c =
          reportedLikeCount st c - 1) ∧
      (userLikes st c u = false →
        userLikes (toggleCommentLike st (some u) true c).2.1 c u = true ∧
        reportedLikeCount (toggleCommentLike st (some u) true c).2.1 c =
          reportedLikeCount st c + 1)) ∧
    userLikes
        (toggleCommentLike (toggleCommentLike st (some u) true c).2.1 (some u) true c).2.1
        c u =
      userLikes st c u ∧
    reportedLikeCount
        (toggleCommentLike (toggleCommentLike st (some u) true c).2.1 (some u) true c).2.1
        c =
      reportedLikeCount st c := by
  obtain ⟨h1, h2, hwf1, hc1⟩ := toggle_step st u c hwf hc
  obtain ⟨g1, g2, -, -⟩ := toggle_step (toggleCommentLike st (some u) true c).2.1 u c hwf1 hc1
  refine ⟨⟨h1, h2⟩, ?_, ?_⟩
  · cases hu : userLikes st c u
    · obtain ⟨hu1, -⟩ := h2 hu
      obtain ⟨gu, -⟩ := g1 hu1
      exact gu
    · obtain ⟨hu1, -⟩ := h1 hu
      obtain ⟨gu, -⟩ := g2 hu1
      exact gu
  · cases hu : userLikes st c u
    · obtain ⟨hu1, hr1⟩ := h2 hu
      obtain ⟨-, gr⟩ := g1 hu1
      rw [gr, hr1]
      omega
    · obtain ⟨hu1, hr1⟩ := h1 hu
      obtain ⟨-, gr⟩ := g2 hu1
      rw [gr, hr1]
      omega

theorem toggleCommentLike_toggle_semantics_witness :
    userLikes stW 5 7 = false ∧
    userLikes (toggleCommentLike stW (some 7) true 5).2.1 5 7 = true ∧
    reportedLikeCount (toggleCommentLike stW (some 7) true 5).2.1 5 =
      reportedLikeCount stW 5 + 1 ∧
    userLikes
        (toggleCommentLike (toggleCommentLike stW (some 7) true 5).2.1 (some 7) true 5).2.1
        5 7 =
      userLikes stW 5 7 ∧
    reportedLikeCount
        (toggleCommentLike (toggleCommentLike stW (some 7) true 5).2.1 (some 7) true 5).2.1
        5 =
      reportedLikeCount stW 5 := by
  have h := toggleCommentLike_toggle_semantics stW 7 5
    ⟨by decide, by decide, by decide, by decide⟩ (by decide)
  exact ⟨by decide, (h.1.2 (by decide)).1, (h.1.2 (by decide)).2, h.2.1, h.2.2⟩

theorem cascadeDelete_nil (comments : List CommentRow) :
    cascadeDelete comments [] = comments := by
  rw [cascadeDelete]

theorem cascadeDelete_cons_pos (comments : List CommentRow) (t : Nat) (ts : List Nat)
    (h : (comments.any fun r => r.id == t) = true) :
    cascadeDelete comments (t :: ts) =
      cascadeDelete (restOf comments t) (ts ++ kidsOf comments t) := by
  rw [cascadeDelete]
  simp only [h, dif_pos]

theorem cascadeDelete_cons_neg (comments : List CommentRow) (t : Nat) (ts : List Nat)
    (h : ¬ (comments.any fun r => r.id == t) = true) :
    cascadeDelete comments (t :: ts) = cascadeDelete comments ts := by
  rw [cascadeDelete]
  simp [h]

theorem cascadeDelete_subset (comments : List CommentRow) (work : List Nat) :
    ∀ r ∈ cascadeDelete comments work, r ∈ comments := by
  induction comments, work using cascadeDelete.induct with
  | case1 comments =>
    intro r hr
    rwa [cascadeDelete_nil] at hr
  | case2 comments t ts h ih =>
    intro r hr
    rw [cascadeDelete_cons_pos comments t ts h] at hr
    exact (List.mem_filter.mp (ih r hr)).1
  | case3 comments t ts h ih =>
    intro r hr
    rw [cascadeDelete_cons_neg comments t ts h] at hr
    exact ih r hr

theorem parentOf_some_row {comments : List CommentRow} {a p : Nat}
    (h : parentOf comments a = some p) :
    ∃ r ∈ comments, r.id = a ∧ r.parentId = some p := by
  unfold parentOf at h
  cases hf : comments.find? (fun r => r.id == a) with
  | none =>
    rw [hf] at h
    cases h
  | some r =>
    rw [hf] at h
    exact ⟨r, List.mem_of_find?_eq_some hf, by simpa using List.find?_some hf, h⟩

theorem mem_restOf {comments : List CommentRow} {r : CommentRow} {t : Nat}
    (hr : r ∈ comments) (hne : r.id ≠ t) : r ∈ restOf comments t := by
  unfold restOf
  exact List.mem_filter.mpr ⟨hr, by simp [hne]⟩

theorem mem_kidsOf {comments : List CommentRow} {r : CommentRow} {t : Nat}
    (hr : r ∈ restOf comments t) (hp : r.parentId = some t) :
    r.id ∈ kidsOf comments t := by
  unfold kidsOf
  exact List.mem_map_of_mem _ (List.mem_filter.mpr ⟨hr, by simp [hp]⟩)

theorem restOf_nodup {comments : List CommentRow} {t : Nat}
    (hnd : (comments.map (fun r => r.id)).Nodup) :
    ((restOf comments t).map (fun r => r.id)).Nodup :=
  List.Nodup.sublist ((List.filter_sublist _).map _) hnd

theorem parentOf_restOf_ne {comments : List CommentRow}
    (hnd : (comments.map (fun r => r.id)).Nodup) {x t : Nat} (hx : x ≠ t) :
    parentOf (restOf comments t) x = parentOf comments x := by
  unfold parentOf
  cases h : comments.find? (fun r => r.id == x) with
  | none =>
    have hnone := List.find?_eq_none.mp h
    have hres : (restOf comments t).find? (fun r => r.id == x) = none := by
      rw [List.find?_eq_none]
      intro r hrmem
      exact hnone r (List.mem_filter.mp hrmem).1
    rw [hres]
  | some r =>
    have hrmem := List.mem_of_find?_eq_some h
    have hrid : r.id = x := by simpa using List.find?_some h
    have hrfil : r ∈ restOf comments t := mem_restOf hrmem (hrid ▸ hx)
    have hres := rowOf_mem_self (restOf_nodup hnd) hrfil
    unfold rowOf at hres
    rw [hrid] at hres
    rw [hres]

theorem chain_into_kids {comments : List CommentRow} {t : Nat}
    (hnd : (comments.map (fun r => r.id)).Nodup) :
    ∀ a b, ParentChain comments a b → b = t → a ≠ t →
      a ∈ kidsOf comments t ∨
      ∃ u ∈ kidsOf comments t, ParentChain (restOf comments t) a u := by
  intro a b hchain
  induction hchain with
  | @direct d p h =>
    intro hbt hat
    subst hbt
    obtain ⟨r, hr, hrid, hrp⟩ := parentOf_some_row h
    left
    rw [← hrid]
    exact mem_kidsOf (mem_restOf hr (hrid.symm ▸ hat)) hrp
  | @step d p b h hch ih =>
    intro hbt hat
    subst hbt
    by_cases hpt : p = b
    · subst hpt
      obtain ⟨r, hr, hrid, hrp⟩ := parentOf_some_row h
      left
      rw [← hrid]
      exact mem_kidsOf (mem_restOf hr (hrid.symm ▸ hat)) hrp
    · rcases ih rfl hpt with hk | ⟨u, hu, hchu⟩
      · right
        refine ⟨p, hk, ParentChain.direct ?_⟩
        rw [parentOf_restOf_ne hnd hat]
        exact h
      · right
        refine ⟨u, hu, ParentChain.step ?_ hchu⟩
        rw [parentOf_restOf_ne hnd hat]
        exact h

theorem chain_avoid_or_into {comments : List CommentRow} {t : Nat}
    (hnd : (comments.map (fun r => r.id)).Nodup) :
    ∀ a b, ParentChain comments a b → a ≠ t → b ≠ t →
      ParentChain (restOf comments t) a b ∨ ParentChain comments a t := by
  intro a b hchain
  induction hchain with
  | @direct d p h =>
    intro hat hbt
    left
    refine ParentChain.direct ?_
    rw [parentOf_restOf_ne hnd hat]
    exact h
  | @step d p b h hch ih =>
    intro hat hbt
    by_cases hpt : p = t
    · right
      exact ParentChain.direct (hpt ▸ h)
    · rcases ih hpt hbt with hrest | hto
      · left
        refine ParentChain.step ?_ hrest
        rw [parentOf_restOf_ne hnd hat]
        exact h
      · right
        exact ParentChain.step h hto

theorem chain_to_absent {comments : List CommentRow} {t : Nat} {ts : List Nat}
    (habs : ¬ (comments.any fun r => r.id == t) = true)
    (hinv : FKmodWork comments (t :: ts)) :
    ∀ a b, ParentChain comments a b → b = t →
      a ∈ ts ∨ ∃ u ∈ ts, ParentChain comments a u := by
  intro a b hchain
  induction hchain with
  | @direct d p h =>
    intro hbt
    subst hbt
    obtain ⟨r, hr, hrid, hrp⟩ := parentOf_some_row h
    have hnoq : ¬ ∃ q ∈ comments, q.id = p := by
      rintro ⟨q, hq, hqid⟩
      exact habs (List.any_eq_true.mpr ⟨q, hq, by simp [hqid]⟩)
    rcases hinv r hr p hrp with hq | hmem
    · exact absurd hq hnoq
    · rcases List.mem_cons.mp hmem with heq | hts
      · exact absurd ⟨r, hr, heq⟩ hnoq
      · left
        rw [← hrid]
        exact hts
  | @step d p b h hch ih =>
    intro hbt
    subst hbt
    rcases ih rfl with hp | ⟨u, hu, hchu⟩
    · exact Or.inr ⟨p, hp, ParentChain.direct h⟩
    · exact Or.inr ⟨u, hu, ParentChain.step h hchu⟩

theorem fkmod_shrink_absent {comments : List CommentRow} {t : Nat} {ts : List Nat}
    (habs : ¬ (comments.any fun r => r.id == t) = true)
    (hinv : FKmodWork comments (t :: ts)) : FKmodWork comments ts := by
  intro r hr p hp
  rcases hinv r hr p hp with hq | hmem
  · exact Or.inl hq
  · rcases List.mem_cons.mp hmem with heq | hts
    · exact absurd (List.any_eq_true.mpr ⟨r, hr, by simp [heq]⟩) habs
    · exact Or.inr hts

theorem fkmod_step {comments : List CommentRow} {t : Nat} {ts : List Nat}
    (hinv : FKmodWork comments (t :: ts)) :
    FKmodWork (restOf comments t) (ts ++ kidsOf comments t) := by
  intro r hr p hp
  have hrc : r ∈ comments := (List.mem_filter.mp hr).1
  by_cases hq : ∃ q ∈ restOf comments t, q.id = p
  · exact Or.inl hq
  · right
    rcases hinv r hrc p hp with ⟨q, hqc, hqid⟩ | hmem
    · by_cases hqt : q.id = t
      · have hpt : p = t := hqid ▸ hqt
        exact List.mem_append.mpr (Or.inr (mem_kidsOf hr (hpt ▸ hp)))
      · exact absurd ⟨q, mem_restOf hqc hqt, hqid⟩ hq
    · rcases List.mem_cons.mp hmem with heq | hts
      · exfalso
        have hfil := (List.mem_filter.mp hr).2
        simp [heq] at hfil
      · exact List.mem_append.mpr (Or.inl hts)

theorem cascade_removes :
    ∀ (comments : List CommentRow) (work : List Nat),
      (comments.map (fun r => r.id)).Nodup → FKmodWork comments work →
      ∀ e ∈ comments,
        (e.id ∈ work ∨ ∃ u ∈ work, ParentChain comments e.id u) →
        e ∉ cascadeDelete comments work := by
  intro comments work
  induction comments, work using cascadeDelete.induct with
  | case1 comments =>
    intro hnd hinv e he hcase
    rcases hcase with h | ⟨u, hu, -⟩
    · cases h
    · cases hu
  | case2 comments t ts h ih =>
    intro hnd hinv e he hcase
    rw [cascadeDelete_cons_pos comments t ts h]
    by_cases het : e.id = t
    · intro habs
      have hmem := cascadeDelete_subset _ _ e habs
      have hfil := (List.mem_filter.mp hmem).2
      simp [het] at hfil
    · have her : e ∈ restOf comments t := mem_restOf he het
      apply ih (restOf_nodup hnd) (fkmod_step hinv) e her
      rcases hcase with hid | ⟨u, hu, hch⟩
      · rcases List.mem_cons.mp hid with heq | hts
        · exact absurd heq het
        · exact Or.inl (List.mem_append.mpr (Or.inl hts))
      · by_cases hut : u = t
        · subst hut
          rcases chain_into_kids hnd e.id u hch rfl het with hk | ⟨v, hv, hchv⟩
          · exact Or.inl (List.mem_append.mpr (Or.inr hk))
          · exact Or.inr ⟨v, List.mem_append.mpr (Or.inr hv), hchv⟩
        · have huts : u ∈ ts := by
            rcases List.mem_cons.mp hu with heq | hts
            · exact absurd heq hut
            · exact hts
          rcases chain_avoid_or_into hnd e.id u hch het hut with hrest | hto
          · exact Or.inr ⟨u, List.mem_append.mpr (Or.inl huts), hrest⟩
          · rcases chain_into_kids hnd e.id t hto rfl het with hk | ⟨v, hv, hchv⟩
            · exact Or.inl (List.mem_append.mpr (Or.inr hk))
            · exact Or.inr ⟨v, List.mem_append.mpr (Or.inr hv), hchv⟩
  | case3 comments t ts h ih =>
    intro hnd hinv e he hcase
    rw [cascadeDelete_cons_neg comments t ts h]
    apply ih hnd (fkmod_shrink_absent h hinv) e he
    rcases hcase with hid | ⟨u, hu, hch⟩
    · rcases List.mem_cons.mp hid with heq | hts
      · exact absurd (List.any_eq_true.mpr ⟨e, he, by simp [heq]⟩) h
      · exact Or.inl hts
    · rcases List.mem_cons.mp hu with rfl | hts
      · rcases chain_to_absent h hinv e.id u hch rfl with hts2 | ⟨v, hv, hchv⟩
        · exact Or.inl hts2
        · exact Or.inr ⟨v, hv, hchv⟩
      · exact Or.inr ⟨u, hts, hch⟩

/-- C9: in a store satisfying the schema constraints, deleting a comment
removes, at the store layer, every row whose parent chain leads to it along
with the row itself, so neither appears in the next fetched list; the
client issues exactly the single delete request and performs no cascade
logic of its own. -/
theorem deleteComment_cascades (comments : List CommentRow)
    (hnd : (comments.map (fun r => r.id)).Nodup)
    (hfk : fkIntact comments = true)
    (c : Nat) (d : CommentRow) (hd : d ∈ comments)
    (hchain : ParentChain comments d.id c) :
    (∀ row ∈ deleteCommentStore comments c, row.id ≠ c ∧ row.id ≠ d.id) ∧
    (∀ (hs : HookState) (postId : Option Nat) (deleteOk : Bool)
        (fetchRes : Except Unit (List CommentRow)),
      (runDeleteComment hs postId c deleteOk fetchRes).2.2 =
        [WriteReq.deleteComment c]) := by
  have hinv : FKmodWork comments [c] := by
    intro r hr p hp
    left
    have hall := List.all_eq_true.mp hfk r hr
    rw [hp] at hall
    rcases List.any_eq_true.mp hall with ⟨q, hq, hqid⟩
    exact ⟨q, hq, by simpa using hqid⟩
  constructor
  · intro row hrow
    have hrowc : row ∈ comments := cascadeDelete_subset _ _ row hrow
    constructor
    · intro heq
      exact cascade_removes comments [c] hnd hinv row hrowc
        (Or.inl (by simp [heq])) hrow
    · intro heq
      have hrd : row = d := List.inj_on_of_nodup_map hnd hrowc hd heq
      subst hrd
      exact cascade_removes comments [c] hnd hinv row hrowc
        (Or.inr ⟨c, by simp, hchain⟩) hrow
  · intro hs postId deleteOk fetchRes
    cases deleteOk <;> rfl

theorem deleteComment_cascades_witness :
    deleteCommentStore [r1, r2] 1 = [] ∧
    (runDeleteComment hs0 (some 10) 1 true (Except.ok [])).2.2 =
      [WriteReq.deleteComment 1] := by
  have h := deleteComment_cascades [r1, r2] (by decide) (by decide) 1 r2 (by simp)
    (ParentChain.direct (by decide))
  refine ⟨?_, h.2 hs0 (some 10) true (Except.ok [])⟩
  show cascadeDelete [r1, r2] [1] = []
  rw [cascadeDelete_cons_pos _ _ _ (by decide),
    show restOf [r1, r2] 1 = [r2] by decide,
    show (([] : List Nat) ++ kidsOf [r1, r2] 1) = [2] by decide,
    cascadeDelete_cons_pos _ _ _ (by decide),
    show restOf [r2] 2 = ([] : List CommentRow) by decide,
    show (([] : List Nat) ++ kidsOf [r2] 2) = ([] : List Nat) by decide,
    cascadeDelete_nil]

end BlogHub
